import Mathlib

/- Verification development for the surjection chain complex engine of the
clesto repository: a shallow embedding of `Surjection_element` and of the
operations `boundary`, `compose`, the symmetric group action, `orbit`, and
the validated constructors, together with the algebraic laws stated in the
design document.  The clesto library module itself is not included in the
repository snapshot (the notebook only calls it), so every operation is
modelled from the specification text; each such definition carries a
`Modelled from the spec` comment. -/

namespace Clesto

/-- Modelled from the spec: a surjection word is an ordered sequence of
positive integer labels `(a_1, ..., a_k)`. -/
abbrev Word := List ℕ

/-- Modelled from the spec: every label of the word lies in `[1, arity]`. -/
def inRangeB (n : ℕ) (w : Word) : Bool :=
  w.all (fun a => decide (1 ≤ a) && decide (a ≤ n))

/-- Modelled from the spec: every label `1..arity` occurs in the word
(surjectivity). -/
def ontoB (n : ℕ) (w : Word) : Bool :=
  (List.range n).all (fun i => decide ((i + 1) ∈ w))

/-- Modelled from the spec: Berger-Fresse non-degeneracy, no label repeats in
two adjacent positions of the word. -/
def nondegB : Word → Bool
  | [] => true
  | [_] => true
  | a :: b :: t => (!(a == b)) && nondegB (b :: t)

theorem nondegB_iff_chain : ∀ w : Word,
    nondegB w = true ↔ w.Chain' (fun a b => a ≠ b)
  | [] => by simp [nondegB]
  | [a] => by simp [nondegB]
  | a :: b :: t => by
    rw [nondegB, Bool.and_eq_true, List.chain'_cons]
    have ih := nondegB_iff_chain (b :: t)
    constructor
    · rintro ⟨h1, h2⟩
      refine ⟨?_, ih.mp h2⟩
      simpa using h1
    · rintro ⟨h1, h2⟩
      refine ⟨by simpa using h1, ih.mpr h2⟩

/-- Modelled from the spec: a valid surjection word for a given arity:
labels in range, surjective onto `1..arity`, and non-degenerate. -/
def validWord (n : ℕ) (w : Word) : Bool :=
  inRangeB n w && ontoB n w && nondegB w

/-- A term of a formal linear combination: a basis word and its coefficient. -/
abbrev Term := Word × ℕ

/-- The underlying data of a `Surjection_element`: a finite list of terms. -/
abbrev TList := List Term

/-- Total coefficient of the key `k` in a term list. -/
def coeffSum (k : Word) : TList → ℕ
  | [] => 0
  | t :: l => (if t.1 = k then t.2 else 0) + coeffSum k l

/-- Coefficient of key `k` after reduction mod the torsion `p`. -/
def evalN (p : ℕ) (l : TList) (k : Word) : ℕ := coeffSum k l % p

/-- Encoding of a term as a single list, coefficient first, used to order
terms canonically. -/
def termKey (t : Term) : List ℕ := t.1 ++ [t.2]

/-- Canonical order on terms: by encoded key. -/
def termLe (t u : Term) : Prop := termKey t ≤ termKey u

instance : DecidableRel termLe := fun t u =>
  inferInstanceAs (Decidable (termKey t ≤ termKey u))

theorem termKey_injective : Function.Injective termKey := by
  intro t u h
  unfold termKey at h
  have hl : ([t.2] : List ℕ).length = ([u.2] : List ℕ).length := rfl
  obtain ⟨h1, h2⟩ := List.append_inj' h hl
  have h3 : t.2 = u.2 := by simpa using h2
  exact Prod.ext h1 h3

instance : IsTotal Term termLe :=
  ⟨fun t u => le_total (termKey t) (termKey u)⟩

instance : IsTrans Term termLe :=
  ⟨fun _ _ _ h h' => le_trans h h'⟩

instance : IsAntisymm Term termLe :=
  ⟨fun t u h h' => termKey_injective (le_antisymm h h')⟩

/-- The distinct keys of a term list. -/
def keys (l : TList) : List Word := (l.map (fun t => t.1)).dedup

/-- The reduced terms of a term list: one term per key whose reduced
coefficient is nonzero. -/
def normTerms (p : ℕ) (l : TList) : TList :=
  (keys l).filterMap (fun k =>
    let c := evalN p l k
    if c = 0 then none else some (k, c))

/-- Modelled from the spec: normalisation of a formal sum, summing colliding
terms, reducing coefficients mod the torsion, dropping zero coefficients, and
sorting into a canonical order.  Every operation of the engine returns a
normalised mapping. -/
def norm (p : ℕ) (l : TList) : TList :=
  List.insertionSort termLe (normTerms p l)

/-- The representation invariant of a `Surjection_element`: canonically
sorted with distinct keys, and all stored coefficients in `[1, torsion)`. -/
def isNormal (p : ℕ) (l : TList) : Prop :=
  l.Sorted termLe ∧ (l.map (fun t => t.1)).Nodup ∧
    ∀ t ∈ l, 0 < t.2 ∧ t.2 < p

theorem coeffSum_perm (k : Word) {l l' : TList} (h : l.Perm l') :
    coeffSum k l = coeffSum k l' := by
  induction h with
  | nil => rfl
  | cons x _ ih => simp [coeffSum, ih]
  | swap x y l => simp [coeffSum]; ring
  | trans _ _ ih₁ ih₂ => exact ih₁.trans ih₂

theorem coeffSum_append (k : Word) (l l' : TList) :
    coeffSum k (l ++ l') = coeffSum k l + coeffSum k l' := by
  induction l with
  | nil => simp [coeffSum]
  | cons t l ih => simp [coeffSum, ih]; ring

theorem coeffSum_eq_zero_of_not_mem_keys {k : Word} {l : TList}
    (h : k ∉ l.map (fun t => t.1)) : coeffSum k l = 0 := by
  induction l with
  | nil => rfl
  | cons t l ih =>
    simp only [List.map_cons, List.mem_cons] at h
    push_neg at h
    have ht : ¬ t.1 = k := fun he => h.1 he.symm
    rw [coeffSum, if_neg ht, ih h.2]

theorem mem_keys_of_coeffSum_ne_zero {k : Word} {l : TList}
    (h : coeffSum k l ≠ 0) : k ∈ l.map (fun t => t.1) := by
  by_contra hc
  exact h (coeffSum_eq_zero_of_not_mem_keys hc)

theorem normTerms_nodup_keys (p : ℕ) (l : TList) :
    ((normTerms p l).map (fun t => t.1)).Nodup := by
  have hsub : List.Sublist ((normTerms p l).map (fun t => t.1)) (keys l) := by
    unfold normTerms
    induction keys l with
    | nil => simp
    | cons a as ih =>
      by_cases h : evalN p l a = 0
      · simpa [h] using List.Sublist.cons a ih
      · simpa [h] using List.Sublist.cons₂ a ih
  exact (List.nodup_dedup _).sublist hsub

theorem normTerms_nodup (p : ℕ) (l : TList) : (normTerms p l).Nodup :=
  (normTerms_nodup_keys p l).of_map _

theorem mem_normTerms_iff {p : ℕ} {l : TList} {t : Term} :
    t ∈ normTerms p l ↔ evalN p l t.1 = t.2 ∧ t.2 ≠ 0 := by
  unfold normTerms
  simp only [List.mem_filterMap]
  constructor
  · rintro ⟨k, _, hk⟩
    by_cases h : evalN p l k = 0
    · simp [h] at hk
    · simp only [if_neg h] at hk
      obtain rfl : (k, evalN p l k) = t := by simpa using hk
      exact ⟨rfl, h⟩
  · rintro ⟨h1, h2⟩
    refine ⟨t.1, ?_, ?_⟩
    · have : coeffSum t.1 l ≠ 0 := by
        intro hc
        rw [evalN, hc] at h1
        simp at h1
        exact h2 h1.symm
      exact List.mem_dedup.mpr (mem_keys_of_coeffSum_ne_zero this)
    · simp [h1, h2]

theorem norm_perm_normTerms (p : ℕ) (l : TList) :
    (norm p l).Perm (normTerms p l) :=
  List.perm_insertionSort termLe (normTerms p l)

theorem norm_sorted (p : ℕ) (l : TList) : (norm p l).Sorted termLe :=
  List.sorted_insertionSort termLe (normTerms p l)

theorem mem_norm_iff {p : ℕ} {l : TList} {t : Term} :
    t ∈ norm p l ↔ evalN p l t.1 = t.2 ∧ t.2 ≠ 0 := by
  rw [(norm_perm_normTerms p l).mem_iff, mem_normTerms_iff]

/-- Normalisation is canonical: two term lists with the same reduced
coefficient function normalise to the same value. -/
theorem norm_eq_of_evalN_eq {p : ℕ} {l l' : TList}
    (h : ∀ k, evalN p l k = evalN p l' k) : norm p l = norm p l' := by
  apply List.eq_of_perm_of_sorted _ (norm_sorted p l) (norm_sorted p l')
  have h1 : (norm p l).Nodup :=
    ((normTerms_nodup p l).perm (norm_perm_normTerms p l).symm)
  have h2 : (norm p l').Nodup :=
    ((normTerms_nodup p l').perm (norm_perm_normTerms p l').symm)
  apply List.perm_of_nodup_nodup_toFinset_eq h1 h2
  ext t
  simp only [List.mem_toFinset, mem_norm_iff, h t.1]

theorem coeffSum_norm (p : ℕ) (l : TList) (k : Word) :
    coeffSum k (norm p l) = evalN p l k := by
  rw [coeffSum_perm k (norm_perm_normTerms p l)]
  unfold normTerms
  have hd : k ∈ keys l ∨ k ∉ keys l := em _
  have key : ∀ ks : List Word, ks.Nodup →
      coeffSum k (ks.filterMap (fun k' =>
        let c := evalN p l k'
        if c = 0 then none else some (k', c))) =
      if k ∈ ks ∧ evalN p l k ≠ 0 then evalN p l k else 0 := by
    intro ks hks
    induction ks with
    | nil => simp [coeffSum]
    | cons a as ih =>
      have ha : a ∉ as := (List.nodup_cons.mp hks).1
      have has : as.Nodup := (List.nodup_cons.mp hks).2
      by_cases hz : evalN p l a = 0
      · simp only [hz, if_pos, List.filterMap_cons]
        rw [ih has]
        by_cases hk : k = a
        · subst hk
          simp [hz, ha]
        · simp [List.mem_cons, hk]
      · simp only [List.filterMap_cons, if_neg hz]
        rw [coeffSum]
        rw [ih has]
        by_cases hk : k = a
        · subst hk
          simp [hz, ha]
        · simp only [List.mem_cons]
          have : ¬ (a, evalN p l a).1 = k := fun he => hk he.symm
          simp [this, hk]
    -- end key
  rw [key (keys l) (List.nodup_dedup _)]
  by_cases hz : evalN p l k = 0
  · simp [hz]
  · have hm : k ∈ keys l := by
      apply List.mem_dedup.mpr
      apply mem_keys_of_coeffSum_ne_zero
      intro hc
      exact hz (by simp [evalN, hc])
    simp [hm, hz]

theorem evalN_norm (p : ℕ) (l : TList) (k : Word) :
    evalN p (norm p l) k = evalN p l k := by
  rw [evalN, coeffSum_norm, evalN, Nat.mod_mod_of_dvd _ dvd_rfl]

theorem isNormal_norm {p : ℕ} (hp : 0 < p) (l : TList) :
    isNormal p (norm p l) := by
  refine ⟨norm_sorted p l, ?_, ?_⟩
  · exact (normTerms_nodup_keys p l).perm
      ((norm_perm_normTerms p l).map (fun t => t.1)).symm
  · intro t ht
    obtain ⟨h1, h2⟩ := mem_norm_iff.mp ht
    refine ⟨Nat.pos_of_ne_zero h2, ?_⟩
    rw [← h1, evalN]
    exact Nat.mod_lt _ hp

theorem keys_norm_subset {p : ℕ} {l : TList} {t : Term} (ht : t ∈ norm p l) :
    t.1 ∈ l.map (fun t => t.1) := by
  obtain ⟨h1, h2⟩ := mem_norm_iff.mp ht
  apply mem_keys_of_coeffSum_ne_zero
  intro hc
  rw [evalN, hc] at h1
  simp at h1
  exact h2 h1.symm

theorem norm_eq_nil_of_evalN_zero {p : ℕ} {l : TList}
    (h : ∀ k, evalN p l k = 0) : norm p l = [] := by
  have : norm p l = norm p [] := norm_eq_of_evalN_eq (by
    intro k
    rw [h k]
    simp [evalN, coeffSum])
  rw [this]
  rfl

/-- Coefficient of the `j`-th face under the alternating face-map rule,
reduced into `[0, p)`: the value of `(-1)^j * c` mod `p`.  The spec names
the alternating face-map rule as governing the face coefficients; the
alternating signs are also forced by the spec's required law that the
boundary squares to zero, which fails mod an odd torsion without them. -/
def faceCoeff (p j c : ℕ) : ℕ :=
  if j % 2 = 0 then c % p else (p - c % p) % p

/-- Modelled from the spec: the face terms of one basis surjection with
coefficient `c`: for each position `j` the word with its `j`-th entry
deleted, kept only when the deletion is still a valid surjection, with the
alternating face-map coefficient reduced mod the torsion. -/
def boundaryTerms (p n : ℕ) (t : Term) : TList :=
  (List.range t.1.length).filterMap (fun j =>
    if validWord n (t.1.eraseIdx j) then
      some (t.1.eraseIdx j, faceCoeff p j t.2)
    else none)

/-- Modelled from the spec: `boundary()`, the chain differential: the sum of
the face terms of every basis surjection, colliding results summed mod the
torsion and zero coefficients dropped. -/
def boundaryL (p n : ℕ) (l : TList) : TList :=
  norm p (l.flatMap (boundaryTerms p n))

/-- Semantic value of a term list: its finitely supported coefficient
function with values in `ZMod p`. -/
noncomputable def sem (p : ℕ) : TList → (Word →₀ ZMod p)
  | [] => 0
  | t :: l => Finsupp.single t.1 ((t.2 : ℕ) : ZMod p) + sem p l

theorem sem_apply (p : ℕ) (l : TList) (k : Word) :
    sem p l k = ((coeffSum k l : ℕ) : ZMod p) := by
  induction l with
  | nil => simp [sem, coeffSum]
  | cons t l ih =>
    rw [sem, coeffSum, Finsupp.add_apply, ih, Finsupp.single_apply, Nat.cast_add]
    congr 1
    split_ifs <;> simp

theorem sem_append (p : ℕ) (l l' : TList) :
    sem p (l ++ l') = sem p l + sem p l' := by
  induction l with
  | nil => simp [sem]
  | cons t l ih => rw [List.cons_append, sem, sem, ih, add_assoc]

theorem sem_norm (p : ℕ) (l : TList) : sem p (norm p l) = sem p l := by
  ext k
  rw [sem_apply, sem_apply, coeffSum_norm, evalN, ZMod.natCast_mod]

theorem norm_eq_of_sem_eq {p : ℕ} (hp : 0 < p) {l l' : TList}
    (h : sem p l = sem p l') : norm p l = norm p l' := by
  apply norm_eq_of_evalN_eq
  intro k
  have hv : ∀ m : TList, ((evalN p m k : ℕ) : ZMod p) = sem p m k := by
    intro m
    rw [sem_apply, evalN, ZMod.natCast_mod]
  have h1 : evalN p l k < p := Nat.mod_lt _ hp
  have h2 : evalN p l' k < p := Nat.mod_lt _ hp
  have : ((evalN p l k : ℕ) : ZMod p) = ((evalN p l' k : ℕ) : ZMod p) := by
    rw [hv, hv, h]
  calc evalN p l k = ((evalN p l k : ℕ) : ZMod p).val := (ZMod.val_cast_of_lt h1).symm
    _ = ((evalN p l' k : ℕ) : ZMod p).val := by rw [this]
    _ = evalN p l' k := ZMod.val_cast_of_lt h2

theorem sem_eq_zero_iff_evalN {p : ℕ} (hp : 0 < p) {l : TList} :
    sem p l = 0 ↔ ∀ k, evalN p l k = 0 := by
  constructor
  · intro h k
    have : sem p l k = 0 := by rw [h]; rfl
    rw [sem_apply] at this
    have h1 : evalN p l k < p := Nat.mod_lt _ hp
    have : ((evalN p l k : ℕ) : ZMod p) = 0 := by
      rw [evalN, ZMod.natCast_mod]
      exact this
    calc evalN p l k = ((evalN p l k : ℕ) : ZMod p).val := (ZMod.val_cast_of_lt h1).symm
      _ = (0 : ZMod p).val := by rw [this]
      _ = 0 := ZMod.val_zero
  · intro h
    ext k
    rw [sem_apply]
    have hk := h k
    rw [evalN] at hk
    rw [← ZMod.natCast_mod _ p, hk]
    simp

/-- Semantic face sum of one basis word, with no validity filtering: the
alternating sum of all single-entry deletions. -/
noncomputable def faceSumF (p : ℕ) (w : Word) : Word →₀ ZMod p :=
  ∑ j ∈ Finset.range w.length,
    ((-1 : ZMod p))^j • Finsupp.single (w.eraseIdx j) (1 : ZMod p)

/-- The projection keeping only valid basis words. -/
noncomputable def projG (p n : ℕ) (f : Word →₀ ZMod p) : Word →₀ ZMod p :=
  Finsupp.filter (fun w => validWord n w = true) f

/-- The full (unfiltered) differential on semantic values. -/
noncomputable def Dfull (p : ℕ) (f : Word →₀ ZMod p) : Word →₀ ZMod p :=
  f.sum (fun w c => c • faceSumF p w)

theorem Dfull_zero (p : ℕ) : Dfull p 0 = 0 := Finsupp.sum_zero_index

theorem Dfull_add (p : ℕ) (f g : Word →₀ ZMod p) :
    Dfull p (f + g) = Dfull p f + Dfull p g :=
  Finsupp.sum_add_index' (fun _ => zero_smul _ _) (fun _ b₁ b₂ => add_smul b₁ b₂ _)

theorem Dfull_single (p : ℕ) (w : Word) (c : ZMod p) :
    Dfull p (Finsupp.single w c) = c • faceSumF p w :=
  Finsupp.sum_single_index (zero_smul _ _)

theorem Dfull_smul (p : ℕ) (c : ZMod p) (f : Word →₀ ZMod p) :
    Dfull p (c • f) = c • Dfull p f := by
  unfold Dfull
  calc ((c • f).sum fun w d => d • faceSumF p w)
      = f.sum (fun w d => (c • d) • faceSumF p w) :=
        Finsupp.sum_smul_index' (fun _ => zero_smul _ _)
    _ = f.sum (fun w d => c • (d • faceSumF p w)) :=
        Finsupp.sum_congr (fun w _ => smul_assoc c _ _)
    _ = c • f.sum (fun w d => d • faceSumF p w) := (Finsupp.smul_sum).symm

theorem projG_zero (p n : ℕ) : projG p n 0 = 0 := by
  unfold projG
  ext w
  simp [Finsupp.filter_apply]

theorem projG_add (p n : ℕ) (f g : Word →₀ ZMod p) :
    projG p n (f + g) = projG p n f + projG p n g := Finsupp.filter_add

theorem projG_smul (p n : ℕ) (c : ZMod p) (f : Word →₀ ZMod p) :
    projG p n (c • f) = c • projG p n f := Finsupp.filter_smul

theorem projG_single (p n : ℕ) (w : Word) (c : ZMod p) :
    projG p n (Finsupp.single w c) =
      if validWord n w = true then Finsupp.single w c else 0 := by
  by_cases h : validWord n w = true
  · rw [if_pos h]
    exact Finsupp.filter_single_of_pos _ h
  · rw [if_neg h]
    exact Finsupp.filter_single_of_neg _ h

theorem sem_filterMap_range (p len : ℕ) (g : ℕ → Option Term) :
    sem p ((List.range len).filterMap g) =
      ∑ j ∈ Finset.range len,
        (g j).elim 0 (fun t => Finsupp.single t.1 ((t.2 : ℕ) : ZMod p)) := by
  induction len with
  | zero => simp [sem]
  | succ m ih =>
    rw [List.range_succ, List.filterMap_append, sem_append, ih,
      Finset.sum_range_succ]
    congr 1
    cases h : g m <;> simp [h, sem]

theorem faceCoeff_cast {p : ℕ} (hp : 0 < p) (j c : ℕ) :
    ((faceCoeff p j c : ℕ) : ZMod p) = ((-1 : ZMod p))^j * (c : ZMod p) := by
  unfold faceCoeff
  by_cases h : j % 2 = 0
  · have he : Even j := Nat.even_iff.mpr h
    rw [if_pos h, he.neg_one_pow, one_mul, ZMod.natCast_mod]
  · have ho : Odd j := Nat.odd_iff.mpr (by omega)
    rw [if_neg h, ho.neg_one_pow, ZMod.natCast_mod,
      Nat.cast_sub (le_of_lt (Nat.mod_lt _ hp)), ZMod.natCast_self,
      ZMod.natCast_mod]
    ring

theorem sem_boundaryTerms {p : ℕ} (hp : 0 < p) (n : ℕ) (t : Term) :
    sem p (boundaryTerms p n t) =
      projG p n (((t.2 : ℕ) : ZMod p) • faceSumF p t.1) := by
  unfold boundaryTerms
  rw [sem_filterMap_range]
  rw [projG_smul]
  unfold faceSumF
  rw [projG]
  rw [Finsupp.filter_sum, Finset.smul_sum]
  apply Finset.sum_congr rfl
  intro j _
  rw [Finsupp.filter_smul]
  by_cases h : validWord n (t.1.eraseIdx j) = true
  · have hs : Finsupp.filter (fun w => validWord n w = true)
        (Finsupp.single (t.1.eraseIdx j) (1 : ZMod p)) =
        Finsupp.single (t.1.eraseIdx j) (1 : ZMod p) :=
      Finsupp.filter_single_of_pos _ h
    rw [if_pos h, hs]
    simp only [Option.elim]
    rw [faceCoeff_cast hp, Finsupp.smul_single, Finsupp.smul_single,
      smul_eq_mul, smul_eq_mul, mul_one]
    congr 1
    ring
  · have hs : Finsupp.filter (fun w => validWord n w = true)
        (Finsupp.single (t.1.eraseIdx j) (1 : ZMod p)) =
        (0 : Word →₀ ZMod p) :=
      Finsupp.filter_single_of_neg _ h
    rw [if_neg h, hs]
    simp

theorem sem_boundaryL {p : ℕ} (hp : 0 < p) (n : ℕ) (l : TList) :
    sem p (boundaryL p n l) = projG p n (Dfull p (sem p l)) := by
  unfold boundaryL
  rw [sem_norm]
  induction l with
  | nil =>
    simp only [List.flatMap_nil, sem, Dfull_zero, projG_zero]
  | cons t l ih =>
    rw [List.flatMap_cons, sem_append, ih, sem, Dfull_add, projG_add,
      Dfull_single, sem_boundaryTerms hp]

theorem get_idx_eq (w : Word) (a b : ℕ) (ha : a < w.length) (hb : b < w.length)
    (h : a = b) : w.get ⟨a, ha⟩ = w.get ⟨b, hb⟩ := by
  subst h
  rfl

/-- The simplicial identity for deletions: deleting position `j` and then
position `j' < j` is deleting position `j'` and then position `j - 1`. -/
theorem eraseIdx_eraseIdx_of_lt (w : Word) (j j' : ℕ) (hj : j < w.length)
    (h : j' < j) :
    (w.eraseIdx j).eraseIdx j' = (w.eraseIdx j').eraseIdx (j - 1) := by
  apply List.ext_getElem
  · simp only [List.length_eraseIdx]
    split_ifs <;> omega
  · intro m h₁ h₂
    simp only [List.getElem_eraseIdx]
    rcases Nat.lt_or_ge m j' with c1 | c1
    · rw [dif_pos c1, dif_pos (show m < j by omega), dif_pos (show m < j - 1 by omega),
        dif_pos c1]
    · rcases Nat.lt_or_ge m (j - 1) with c2 | c2
      · rw [dif_neg (show ¬ m < j' by omega), dif_pos (show m + 1 < j by omega),
          dif_pos c2, dif_neg (show ¬ m < j' by omega)]
      · rw [dif_neg (show ¬ m < j' by omega), dif_neg (show ¬ m + 1 < j by omega),
          dif_neg (show ¬ m < j - 1 by omega), dif_neg (show ¬ m + 1 < j' by omega)]

/-- Deleting either of two equal adjacent entries gives the same word. -/
theorem eraseIdx_adjacent (w : Word) (i : ℕ) (h1 : i < w.length)
    (h2 : i + 1 < w.length) (heq : w.get ⟨i, h1⟩ = w.get ⟨i + 1, h2⟩) :
    w.eraseIdx i = w.eraseIdx (i + 1) := by
  rw [List.get_eq_getElem, List.get_eq_getElem] at heq
  have heq2 : w[i] = w[i + 1] := heq
  apply List.ext_getElem
  · simp only [List.length_eraseIdx]
    split_ifs <;> omega
  · intro m hm₁ hm₂
    simp only [List.getElem_eraseIdx]
    rcases Nat.lt_or_ge m i with c1 | c1
    · rw [dif_pos c1, dif_pos (show m < i + 1 by omega)]
    · rcases Nat.eq_or_lt_of_le c1 with c2 | c2
      · subst c2
        rw [dif_neg (show ¬ i < i by omega), dif_pos (show i < i + 1 by omega)]
        exact heq2.symm
      · rw [dif_neg (show ¬ m < i by omega), dif_neg (show ¬ m < i + 1 by omega)]

/-- The full differential packaged as an additive morphism. -/
noncomputable def DfullHom (p : ℕ) : (Word →₀ ZMod p) →+ (Word →₀ ZMod p) :=
  AddMonoidHom.mk' (Dfull p) (Dfull_add p)

/-- The valid-word projection packaged as an additive morphism. -/
noncomputable def projGHom (p n : ℕ) : (Word →₀ ZMod p) →+ (Word →₀ ZMod p) :=
  AddMonoidHom.mk' (projG p n) (projG_add p n)

theorem Dfull_sub (p : ℕ) (f g : Word →₀ ZMod p) :
    Dfull p (f - g) = Dfull p f - Dfull p g :=
  (DfullHom p).map_sub f g

theorem projG_sub (p n : ℕ) (f g : Word →₀ ZMod p) :
    projG p n (f - g) = projG p n f - projG p n g :=
  (projGHom p n).map_sub f g

/-- The alternating sum of the double deletions of a word cancels: the heart
of the proof that the boundary squares to zero. -/
theorem Dfull_faceSumF (p : ℕ) (w : Word) : Dfull p (faceSumF p w) = 0 := by
  unfold faceSumF
  have h1 : Dfull p (∑ j ∈ Finset.range w.length,
      ((-1 : ZMod p))^j • Finsupp.single (w.eraseIdx j) (1 : ZMod p)) =
      ∑ j ∈ Finset.range w.length,
        ((-1 : ZMod p))^j • Dfull p (Finsupp.single (w.eraseIdx j) (1 : ZMod p)) := by
    rw [show Dfull p (∑ j ∈ Finset.range w.length,
        ((-1 : ZMod p))^j • Finsupp.single (w.eraseIdx j) (1 : ZMod p)) =
        DfullHom p (∑ j ∈ Finset.range w.length,
        ((-1 : ZMod p))^j • Finsupp.single (w.eraseIdx j) (1 : ZMod p)) from rfl]
    rw [map_sum]
    apply Finset.sum_congr rfl
    intro j _
    rw [show DfullHom p (((-1 : ZMod p))^j • Finsupp.single (w.eraseIdx j) (1 : ZMod p)) =
        Dfull p (((-1 : ZMod p))^j • Finsupp.single (w.eraseIdx j) (1 : ZMod p)) from rfl]
    rw [Dfull_smul]
  rw [h1]
  have h2 : ∀ j ∈ Finset.range w.length,
      ((-1 : ZMod p))^j • Dfull p (Finsupp.single (w.eraseIdx j) (1 : ZMod p)) =
      ∑ j' ∈ Finset.range (w.length - 1),
        ((-1 : ZMod p))^(j + j') •
          Finsupp.single ((w.eraseIdx j).eraseIdx j') (1 : ZMod p) := by
    intro j hj
    rw [Dfull_single, one_smul]
    unfold faceSumF
    rw [List.length_eraseIdx, if_pos (Finset.mem_range.mp hj), Finset.smul_sum]
    apply Finset.sum_congr rfl
    intro j' _
    rw [smul_smul, pow_add]
  rw [Finset.sum_congr rfl h2]
  rw [← Finset.sum_product']
  rw [← Finset.sum_filter_add_sum_filter_not (Finset.range w.length ×ˢ
    Finset.range (w.length - 1)) (fun q => q.2 < q.1)]
  have h3 : ∑ q ∈ (Finset.range w.length ×ˢ Finset.range (w.length - 1)).filter
      (fun q => q.2 < q.1),
      ((-1 : ZMod p))^(q.1 + q.2) •
        Finsupp.single ((w.eraseIdx q.1).eraseIdx q.2) (1 : ZMod p) =
      ∑ q ∈ (Finset.range w.length ×ˢ Finset.range (w.length - 1)).filter
      (fun q => ¬ q.2 < q.1),
      - (((-1 : ZMod p))^(q.1 + q.2) •
        Finsupp.single ((w.eraseIdx q.1).eraseIdx q.2) (1 : ZMod p)) := by
    apply Finset.sum_nbij' (fun q => (q.2, q.1 - 1)) (fun q => (q.2 + 1, q.1))
    · intro a ha
      simp only [Finset.mem_filter, Finset.mem_product, Finset.mem_range] at ha ⊢
      omega
    · intro a ha
      simp only [Finset.mem_filter, Finset.mem_product, Finset.mem_range] at ha ⊢
      omega
    · intro a ha
      simp only [Finset.mem_filter, Finset.mem_product, Finset.mem_range] at ha
      have : a.1 - 1 + 1 = a.1 := by omega
      simp [this]
    · intro a ha
      simp only [Finset.mem_filter, Finset.mem_product, Finset.mem_range] at ha
      simp
    · intro a ha
      simp only [Finset.mem_filter, Finset.mem_product, Finset.mem_range] at ha
      have hid : (w.eraseIdx a.1).eraseIdx a.2 =
          (w.eraseIdx a.2).eraseIdx (a.1 - 1) :=
        eraseIdx_eraseIdx_of_lt w a.1 a.2 (by omega) (by omega)
      have hsgn : ((-1 : ZMod p))^(a.1 + a.2) =
          - ((-1 : ZMod p))^(a.2 + (a.1 - 1)) := by
        have he : a.1 + a.2 = (a.2 + (a.1 - 1)) + 1 := by omega
        rw [he, pow_succ]
        ring
      rw [hid, hsgn, neg_smul]
  rw [h3, Finset.sum_neg_distrib]
  exact neg_add_cancel _

theorem Dfull_Dfull (p : ℕ) (f : Word →₀ ZMod p) :
    Dfull p (Dfull p f) = 0 := by
  induction f using Finsupp.induction with
  | h0 => rw [Dfull_zero, Dfull_zero]
  | ha w c f hw hc ih =>
    rw [Dfull_add, Dfull_add, Dfull_single, Dfull_smul, Dfull_faceSumF,
      smul_zero, zero_add, ih]

theorem inRangeB_eraseIdx {n : ℕ} {w : Word} (h : inRangeB n w = true) (j : ℕ) :
    inRangeB n (w.eraseIdx j) = true := by
  unfold inRangeB at h ⊢
  rw [List.all_eq_true] at h ⊢
  intro a ha
  exact h a ((List.eraseIdx_sublist w j).subset ha)

theorem ontoB_mono {n : ℕ} {w : Word} {j : ℕ}
    (h : ontoB n (w.eraseIdx j) = true) : ontoB n w = true := by
  unfold ontoB at h ⊢
  rw [List.all_eq_true] at h ⊢
  intro a ha
  have h2 := h a ha
  rw [decide_eq_true_eq] at h2 ⊢
  exact (List.eraseIdx_sublist w j).subset h2

theorem ontoB_eraseIdx_of_false {n : ℕ} {w : Word} (h : ontoB n w = false)
    (j : ℕ) : ontoB n (w.eraseIdx j) = false := by
  cases hb : ontoB n (w.eraseIdx j)
  · rfl
  · rw [ontoB_mono hb] at h
    simp at h

theorem nondegB_eraseIdx_far {w : Word} {i j : ℕ} (hi1 : i < w.length)
    (hi2 : i + 1 < w.length) (hj : j < w.length) (hne : j ≠ i)
    (hne' : j ≠ i + 1) (heq : w.get ⟨i, hi1⟩ = w.get ⟨i + 1, hi2⟩) :
    nondegB (w.eraseIdx j) = false := by
  have heq2 : w[i] = w[i + 1] := by
    rw [List.get_eq_getElem, List.get_eq_getElem] at heq
    exact heq
  rw [← Bool.not_eq_true, nondegB_iff_chain, List.chain'_iff_get]
  push_neg
  rcases Nat.lt_or_ge j i with hc | hc
  · refine ⟨i - 1, ?_, ?_⟩
    · rw [List.length_eraseIdx, if_pos hj]
      omega
    · simp only [List.get_eq_getElem, List.getElem_eraseIdx]
      rw [dif_neg (show ¬ i - 1 < j by omega),
        dif_neg (show ¬ i - 1 + 1 < j by omega)]
      simp only [show i - 1 + 1 = i from by omega]
      exact heq2
  · refine ⟨i, ?_, ?_⟩
    · rw [List.length_eraseIdx, if_pos hj]
      omega
    · simp only [List.get_eq_getElem, List.getElem_eraseIdx]
      rw [dif_pos (show i < j by omega), dif_pos (show i + 1 < j by omega)]
      exact heq2

theorem exists_adjacent_of_nondegB_false {w : Word} (h : nondegB w = false) :
    ∃ i, ∃ h1 : i < w.length, ∃ h2 : i + 1 < w.length,
      w.get ⟨i, h1⟩ = w.get ⟨i + 1, h2⟩ := by
  rw [← Bool.not_eq_true, nondegB_iff_chain, List.chain'_iff_get] at h
  push_neg at h
  obtain ⟨i, hi, hv⟩ := h
  exact ⟨i, by omega, by omega, hv⟩

theorem projG_faceSumF_of_not_onto {p n : ℕ} {w : Word}
    (h : ontoB n w = false) : projG p n (faceSumF p w) = 0 := by
  unfold faceSumF
  rw [projG, Finsupp.filter_sum]
  apply Finset.sum_eq_zero
  intro j _
  rw [Finsupp.filter_smul]
  have hv : validWord n (w.eraseIdx j) = false := by
    unfold validWord
    rw [ontoB_eraseIdx_of_false h j]
    simp
  have hs : Finsupp.filter (fun x => validWord n x = true)
      (Finsupp.single (w.eraseIdx j) (1 : ZMod p)) = 0 :=
    Finsupp.filter_single_of_neg _ (by rw [hv]; simp)
  rw [hs, smul_zero]

theorem projG_faceSumF_of_degenerate {p n : ℕ} {w : Word} {i : ℕ}
    (h1 : i < w.length) (h2 : i + 1 < w.length)
    (heq : w.get ⟨i, h1⟩ = w.get ⟨i + 1, h2⟩) :
    projG p n (faceSumF p w) = 0 := by
  unfold faceSumF
  rw [projG, Finsupp.filter_sum]
  have hzero : ∀ j ∈ Finset.range w.length, j ∉ ({i, i + 1} : Finset ℕ) →
      Finsupp.filter (fun x => validWord n x = true)
        (((-1 : ZMod p))^j • Finsupp.single (w.eraseIdx j) (1 : ZMod p)) = 0 := by
    intro j hj hmem
    simp only [Finset.mem_insert, Finset.mem_singleton] at hmem
    push_neg at hmem
    rw [Finsupp.filter_smul]
    have hv : validWord n (w.eraseIdx j) = false := by
      unfold validWord
      rw [nondegB_eraseIdx_far h1 h2 (Finset.mem_range.mp hj) hmem.1 hmem.2 heq]
      simp
    have hs : Finsupp.filter (fun x => validWord n x = true)
        (Finsupp.single (w.eraseIdx j) (1 : ZMod p)) = 0 :=
      Finsupp.filter_single_of_neg _ (by rw [hv]; simp)
    rw [hs, smul_zero]
  have hsub : ({i, i + 1} : Finset ℕ) ⊆ Finset.range w.length := by
    intro x hx
    simp only [Finset.mem_insert, Finset.mem_singleton] at hx
    rcases hx with rfl | rfl
    · exact Finset.mem_range.mpr h1
    · exact Finset.mem_range.mpr h2
  rw [← Finset.sum_subset hsub (fun x hx hnx => hzero x hx hnx)]
  rw [Finset.sum_pair (show i ≠ i + 1 by omega)]
  rw [eraseIdx_adjacent w i h1 h2 heq]
  rw [Finsupp.filter_smul, Finsupp.filter_smul, ← add_smul]
  have hc : ((-1 : ZMod p))^i + ((-1 : ZMod p))^(i + 1) = 0 := by
    rw [pow_succ]
    ring
  rw [hc, zero_smul]

theorem projG_faceSumF_of_invalid {p n : ℕ} {w : Word}
    (hr : inRangeB n w = true) (hv : validWord n w = false) :
    projG p n (faceSumF p w) = 0 := by
  unfold validWord at hv
  rw [hr, Bool.true_and] at hv
  cases ho : ontoB n w with
  | false => exact projG_faceSumF_of_not_onto ho
  | true =>
    rw [ho, Bool.true_and] at hv
    obtain ⟨i, h1, h2, heq⟩ := exists_adjacent_of_nondegB_false hv
    exact projG_faceSumF_of_degenerate h1 h2 heq

theorem mem_support_faceSumF {p : ℕ} {w u : Word}
    (hu : u ∈ (faceSumF p w).support) :
    ∃ j, j < w.length ∧ u = w.eraseIdx j := by
  unfold faceSumF at hu
  have h := Finsupp.support_finset_sum hu
  rw [Finset.mem_biUnion] at h
  obtain ⟨j, hj, hu2⟩ := h
  have hu3 : u ∈ (Finsupp.single (w.eraseIdx j) (1 : ZMod p)).support :=
    Finsupp.support_smul hu2
  have := Finsupp.support_single_subset hu3
  rw [Finset.mem_singleton] at this
  exact ⟨j, Finset.mem_range.mp hj, this⟩

theorem inRange_mem_support_Dfull {p n : ℕ} {f : Word →₀ ZMod p}
    (hf : ∀ w ∈ f.support, inRangeB n w = true) :
    ∀ u ∈ (Dfull p f).support, inRangeB n u = true := by
  intro u hu
  unfold Dfull at hu
  have h := Finsupp.support_sum hu
  rw [Finset.mem_biUnion] at h
  obtain ⟨w, hw, hu2⟩ := h
  have hu3 : u ∈ (faceSumF p w).support := Finsupp.support_smul hu2
  obtain ⟨j, _, rfl⟩ := mem_support_faceSumF hu3
  exact inRangeB_eraseIdx (hf w hw) j

theorem support_sem_subset (p : ℕ) (l : TList) :
    ∀ u ∈ (sem p l).support, u ∈ l.map (fun t => t.1) := by
  induction l with
  | nil =>
    intro u hu
    simp [sem] at hu
  | cons t l ih =>
    intro u hu
    rw [sem] at hu
    have h := Finsupp.support_add hu
    rw [Finset.mem_union] at h
    rcases h with h | h
    · have h2 := Finsupp.support_single_subset h
      rw [Finset.mem_singleton] at h2
      simp only [List.map_cons, List.mem_cons]
      exact Or.inl h2
    · simp only [List.map_cons, List.mem_cons]
      exact Or.inr (ih u h)

theorem projG_Dfull_of_bad {p n : ℕ} (g : Word →₀ ZMod p)
    (hg : ∀ w ∈ g.support, inRangeB n w = true ∧ validWord n w = false) :
    projG p n (Dfull p g) = 0 := by
  unfold Dfull
  rw [Finsupp.sum, projG, Finsupp.filter_sum]
  apply Finset.sum_eq_zero
  intro w hw
  rw [Finsupp.filter_smul]
  have h2 : Finsupp.filter (fun x => validWord n x = true) (faceSumF p w) =
      projG p n (faceSumF p w) := rfl
  rw [h2, projG_faceSumF_of_invalid (hg w hw).1 (hg w hw).2, smul_zero]

/-- The filtered differential applied twice is zero on every coefficient
function supported on in-range words. -/
theorem Dgood_Dgood {p n : ℕ} (f : Word →₀ ZMod p)
    (hf : ∀ w ∈ f.support, inRangeB n w = true) :
    projG p n (Dfull p (projG p n (Dfull p f))) = 0 := by
  have hsplit : projG p n (Dfull p f) = Dfull p f -
      Finsupp.filter (fun w => ¬ validWord n w = true) (Dfull p f) := by
    have h := Finsupp.filter_pos_add_filter_neg (Dfull p f)
      (fun w => validWord n w = true)
    exact eq_sub_of_add_eq h
  rw [hsplit, Dfull_sub, projG_sub]
  have hz1 : projG p n (Dfull p (Dfull p f)) = 0 := by
    rw [Dfull_Dfull, projG_zero]
  rw [hz1, zero_sub, neg_eq_zero]
  apply projG_Dfull_of_bad
  intro w hw
  rw [Finsupp.support_filter, Finset.mem_filter] at hw
  refine ⟨inRange_mem_support_Dfull hf w hw.1, ?_⟩
  cases hval : validWord n w
  · rfl
  · exact absurd hval hw.2

/-- Applying the modelled boundary twice always yields the zero element, for
every element supported on words with in-range labels. -/
theorem boundaryL_boundaryL {p n : ℕ} (hp : 0 < p) (l : TList)
    (hl : ∀ t ∈ l, inRangeB n t.1 = true) :
    boundaryL p n (boundaryL p n l) = [] := by
  have h1 : sem p (boundaryL p n (boundaryL p n l)) = 0 := by
    rw [sem_boundaryL hp, sem_boundaryL hp]
    apply Dgood_Dgood
    intro w hw
    have h := support_sem_subset p l w hw
    rw [List.mem_map] at h
    obtain ⟨t, ht, rfl⟩ := h
    exact hl t ht
  have h2 : sem p (norm p ((boundaryL p n l).flatMap (boundaryTerms p n))) = 0 := h1
  rw [sem_norm] at h2
  show norm p ((boundaryL p n l).flatMap (boundaryTerms p n)) = []
  exact norm_eq_nil_of_evalN_zero ((sem_eq_zero_iff_evalN hp).mp h2)

/-- Modelled from the spec: relabelling of one label by a permutation of
`{1..n}`: labels in range follow the permutation, other values are kept. -/
def relabel (n : ℕ) (σ : Equiv.Perm (Fin n)) (a : ℕ) : ℕ :=
  if h : a - 1 < n then (σ ⟨a - 1, h⟩).1 + 1 else a

/-- Relabelling of a whole word. -/
def relabelWord (n : ℕ) (σ : Equiv.Perm (Fin n)) (w : Word) : Word :=
  w.map (relabel n σ)

/-- Modelled from the spec: the action of a group element of the symmetric
ring on an element: relabel every basis surjection and renormalise. -/
def actL (p n : ℕ) (σ : Equiv.Perm (Fin n)) (l : TList) : TList :=
  norm p (l.map (fun t => (relabelWord n σ t.1, t.2)))

theorem sem_mapKey (p : ℕ) (f : Word → Word) (l : TList) :
    sem p (l.map (fun t => (f t.1, t.2))) =
      Finsupp.mapDomain f (sem p l) := by
  induction l with
  | nil => simp [sem]
  | cons t l ih =>
    rw [List.map_cons, sem, sem, Finsupp.mapDomain_add, Finsupp.mapDomain_single, ih]

theorem relabel_comp (n : ℕ) (σ τ : Equiv.Perm (Fin n)) (a : ℕ) :
    relabel n σ (relabel n τ a) = relabel n (τ.trans σ) a := by
  unfold relabel
  by_cases h : a - 1 < n
  · rw [dif_pos h]
    have h2 : (τ ⟨a - 1, h⟩).1 + 1 - 1 < n := by
      simpa using (τ ⟨a - 1, h⟩).2
    rw [dif_pos h2, dif_pos h]
    simp [Equiv.trans_apply]
  · rw [dif_neg h, dif_neg h, dif_neg h]

theorem relabelWord_comp (n : ℕ) (σ τ : Equiv.Perm (Fin n)) (w : Word) :
    relabelWord n σ (relabelWord n τ w) = relabelWord n (τ.trans σ) w := by
  unfold relabelWord
  rw [List.map_map]
  apply List.map_congr_left
  intro a _
  exact relabel_comp n σ τ a

theorem actL_actL {p n : ℕ} (hp : 0 < p) (σ τ : Equiv.Perm (Fin n))
    (l : TList) : actL p n σ (actL p n τ l) = actL p n (τ.trans σ) l := by
  unfold actL
  apply norm_eq_of_sem_eq hp
  rw [sem_mapKey, sem_mapKey, sem_norm, sem_mapKey]
  rw [← Finsupp.mapDomain_comp]
  have hf : relabelWord n σ ∘ relabelWord n τ = relabelWord n (τ.trans σ) := by
    funext w
    exact relabelWord_comp n σ τ w
  rw [hf]

/-- Encoding of a term as a single integer list, coefficient first. -/
def encT (t : Term) : List ℕ := t.2 :: t.1

/-- Encoding of a whole element, used to order elements totally. -/
def encE (l : TList) : List (List ℕ) := l.map encT

/-- Decoding inverse to `encT`. -/
def decT (s : List ℕ) : Term := (s.tail, s.headD 0)

/-- Decoding inverse to `encE`. -/
def decE (L : List (List ℕ)) : TList := L.map decT

theorem decE_encE (l : TList) : decE (encE l) = l := by
  unfold decE encE
  rw [List.map_map]
  have h : decT ∘ encT = id := funext fun t => rfl
  rw [h, List.map_id]

/-- Modelled from the spec: all translates of an element under the acting
symmetric group, canonically encoded. -/
def translates (p n : ℕ) (l : TList) : Finset (List (List ℕ)) :=
  Finset.image (fun σ : Equiv.Perm (Fin n) => encE (actL p n σ l)) Finset.univ

theorem translates_nonempty (p n : ℕ) (l : TList) :
    (translates p n l).Nonempty :=
  Finset.image_nonempty.mpr Finset.univ_nonempty

/-- Modelled from the spec: `orbit()`, the canonical representative of the
orbit of an element under the symmetric group action: the minimal translate
in the fixed total order on encoded elements. -/
def orbitL (p n : ℕ) (l : TList) : TList :=
  decE ((translates p n l).min' (translates_nonempty p n l))

theorem finset_min_congr {α : Type} [LinearOrder α] {s t : Finset α}
    (h : s = t) (hs : s.Nonempty) (ht : t.Nonempty) : s.min' hs = t.min' ht := by
  subst h
  rfl

theorem translates_actL {p n : ℕ} (hp : 0 < p) (σ : Equiv.Perm (Fin n))
    (l : TList) : translates p n (actL p n σ l) = translates p n l := by
  unfold translates
  ext L
  simp only [Finset.mem_image, Finset.mem_univ, true_and]
  constructor
  · rintro ⟨τ, rfl⟩
    exact ⟨σ.trans τ, by rw [← actL_actL hp τ σ l]⟩
  · rintro ⟨ρ, rfl⟩
    refine ⟨σ.symm.trans ρ, ?_⟩
    rw [actL_actL hp]
    rw [← Equiv.trans_assoc, Equiv.self_trans_symm, Equiv.refl_trans]

/-- Orbit reduction at the level of raw term lists is invariant under the
group action. -/
theorem orbitL_actL {p n : ℕ} (hp : 0 < p) (σ : Equiv.Perm (Fin n))
    (l : TList) : orbitL p n (actL p n σ l) = orbitL p n l := by
  unfold orbitL
  exact congrArg decE (finset_min_congr (translates_actL hp σ l) _ _)

/-- Modelled from the spec: the label-shifting used by partial composition:
the overlapping splittings of the inner word into `r` consecutive pieces,
adjacent pieces sharing one entry. -/
def splits : Word → ℕ → List (List Word)
  | _, 0 => []
  | v, 1 => [[v]]
  | v, r + 2 =>
    (List.range v.length).flatMap (fun c =>
      (splits (v.drop c) (r + 1)).map (fun rest => v.take (c + 1) :: rest))

/-- Modelled from the spec: substitute the pieces of the inner word for the
occurrences of label `i` in the outer word; inner labels are shifted into
the slot by `i - 1`, outer labels above `i` are shifted up by `n - 1`. -/
def substWord (i n : ℕ) : Word → List Word → Word
  | [], _ => []
  | a :: t, ps =>
    if a = i then
      (ps.headD []).map (fun b => b + i - 1) ++ substWord i n t ps.tail
    else (if a < i then a else a + n - 1) :: substWord i n t ps

/-- Modelled from the spec: the composition terms of two basis surjections:
one term per overlapping splitting of the inner word into as many pieces as
the outer word has occurrences of the slot label; coefficients multiply. -/
def composeTerms (i n : ℕ) (s t : Term) : TList :=
  (splits t.1 (s.1.count i)).map
    (fun ps => (substWord i n s.1 ps, s.2 * t.2))

/-- Modelled from the spec: `compose(other, i)` on raw term lists of arities
`m` and `n`: the sum of all composition terms, keeping only words that are
valid surjections of arity `m + n - 1` (invalid and degenerate results are
zero in the module), colliding terms summed mod the torsion. -/
def composeL (p m n : ℕ) (x y : TList) (i : ℕ) : TList :=
  norm p ((x.flatMap (fun s => y.flatMap (fun t => composeTerms i n s t))).filter
    (fun t => validWord (m + n - 1) t.1))

/-- Modelled from the spec: a `Surjection_element` carries its arity, its
torsion, its convention and its coefficient mapping. -/
structure SurjElt where
  arity : ℕ
  torsion : ℕ
  convention : String
  terms : TList
deriving DecidableEq

/-- The representation invariant of a `Surjection_element`: a normalised
mapping (coefficients in `[1, torsion)`, distinct sorted keys) whose keys
are valid surjection words of the element's arity. -/
def SurjElt.wf (x : SurjElt) : Prop :=
  isNormal x.torsion x.terms ∧ ∀ t ∈ x.terms, validWord x.arity t.1 = true

/-- Error taxonomy of the engine, as far as the claims exercise it. -/
inductive ElemError where
  | invalidSlot : ElemError
  | incompatible : ElemError
  | invalidSurjection : ElemError
deriving DecidableEq

/-- Modelled from the spec: `boundary()` at the element level. -/
def SurjElt.boundary (x : SurjElt) : SurjElt :=
  ⟨x.arity, x.torsion, x.convention, boundaryL x.torsion x.arity x.terms⟩

/-- Modelled from the spec: `orbit()` at the element level. -/
def SurjElt.orbit (x : SurjElt) : SurjElt :=
  ⟨x.arity, x.torsion, x.convention, orbitL x.torsion x.arity x.terms⟩

/-- Modelled from the spec: the action of a permutation group element of the
symmetric ring on an element, at the element level. -/
def SurjElt.act (x : SurjElt) (σ : Equiv.Perm (Fin x.arity)) : SurjElt :=
  ⟨x.arity, x.torsion, x.convention, actL x.torsion x.arity σ x.terms⟩

/-- Modelled from the spec: `SymmetricRing.rotation_element(k)`, the cyclic
rotation generator of the symmetric group on `k` letters. -/
def rotationPerm (k : ℕ) : Equiv.Perm (Fin k) := finRotate k

/-- Modelled from the spec: `compose(other, i)` with its error contract:
`IncompatibleElementError` when the torsions or conventions differ, and
`InvalidSlotError` when the slot is outside `[1, arity]`. -/
def composeE (x y : SurjElt) (i : ℕ) : Except ElemError SurjElt :=
  if x.torsion = y.torsion ∧ x.convention = y.convention then
    (if 1 ≤ i ∧ i ≤ x.arity then
      Except.ok ⟨x.arity + y.arity - 1, x.torsion, x.convention,
        composeL x.torsion x.arity y.arity x.terms y.terms i⟩
    else Except.error ElemError.invalidSlot)
  else Except.error ElemError.incompatible

/-- Modelled from the spec: `add` on raw term lists: pointwise sum of the
coefficient mappings with modular reduction, dropping zero results. -/
def addL (p : ℕ) (x y : TList) : TList := norm p (x ++ y)

/-- Modelled from the spec: scalar multiplication mod the torsion. -/
def scalarL (p c : ℕ) (x : TList) : TList :=
  norm p (x.map (fun t => (t.1, c * t.2)))

/-- Modelled from the spec: `suspension()`.  The spec (4.6) fixes the shape
of the operation — a deterministic combinatorial rule applied to each basis
surjection, inserting or removing a marker label, with each coefficient
rescaled by a fixed sign/unit tied to degree parity — but leaves the exact
rule as convention data (the design notes call it not recoverable from the
usage examples).  The model therefore takes the per-word rule and the
parity unit as parameters of exactly that shape; as with composition,
results that are not valid surjection words are zero in the module and are
dropped, and the result is renormalised. -/
def suspensionL (p n : ℕ) (rule : Word → Option Word) (unit : ℕ → ℕ)
    (x : TList) : TList :=
  norm p ((x.filterMap (fun t =>
    (rule t.1).map (fun w => (w, unit t.1.length * t.2)))).filter
      (fun t => validWord n t.1))

/-- Modelled from the spec: a validated basis surjection; construction is
all-or-nothing, the constructed value carries its validity. -/
structure Surjection where
  word : Word
  arity : ℕ
  torsion : ℕ
  valid : validWord arity word = true

/-- Modelled from the spec: the validated constructor of a basis surjection;
it returns `InvalidSurjectionError` exactly when the word is not a valid
surjection for the arity under the convention's non-degeneracy rule. -/
def mkSurjection (w : Word) (n p : ℕ) : Except ElemError Surjection :=
  if h : validWord n w = true then Except.ok ⟨w, n, p, h⟩
  else Except.error ElemError.invalidSurjection

theorem inRangeB_iff {n : ℕ} {w : Word} :
    inRangeB n w = true ↔ ∀ a ∈ w, 1 ≤ a ∧ a ≤ n := by
  unfold inRangeB
  rw [List.all_eq_true]
  constructor
  · intro h a ha
    have h2 := h a ha
    simp only [Bool.and_eq_true, decide_eq_true_eq] at h2
    exact h2
  · intro h a ha
    simp only [Bool.and_eq_true, decide_eq_true_eq]
    exact h a ha

theorem ontoB_iff {n : ℕ} {w : Word} :
    ontoB n w = true ↔ ∀ b, 1 ≤ b → b ≤ n → b ∈ w := by
  unfold ontoB
  rw [List.all_eq_true]
  constructor
  · intro h b hb1 hb2
    have h2 := h (b - 1) (by rw [List.mem_range]; omega)
    rw [decide_eq_true_eq] at h2
    have he : b - 1 + 1 = b := by omega
    rwa [he] at h2
  · intro h i hi
    rw [List.mem_range] at hi
    rw [decide_eq_true_eq]
    exact h (i + 1) (by omega) (by omega)

/-- The validity predicate, stated as the three conditions of the spec. -/
theorem validWord_iff {n : ℕ} {w : Word} :
    validWord n w = true ↔
      ((∀ a ∈ w, 1 ≤ a ∧ a ≤ n) ∧ (∀ b, 1 ≤ b → b ≤ n → b ∈ w) ∧
        w.Chain' (fun a b => a ≠ b)) := by
  unfold validWord
  rw [Bool.and_eq_true, Bool.and_eq_true, inRangeB_iff, ontoB_iff,
    nondegB_iff_chain]
  tauto

theorem inRangeB_of_validWord {n : ℕ} {w : Word} (h : validWord n w = true) :
    inRangeB n w = true := by
  unfold validWord at h
  rw [Bool.and_eq_true, Bool.and_eq_true] at h
  exact h.1.1

theorem relabel_range {n : ℕ} (σ : Equiv.Perm (Fin n)) {a : ℕ}
    (h1 : 1 ≤ a) (h2 : a ≤ n) :
    1 ≤ relabel n σ a ∧ relabel n σ a ≤ n := by
  unfold relabel
  have h : a - 1 < n := by omega
  rw [dif_pos h]
  have hv := (σ ⟨a - 1, h⟩).2
  omega

theorem relabel_inj_on_range {n : ℕ} (σ : Equiv.Perm (Fin n)) {a b : ℕ}
    (ha1 : 1 ≤ a) (ha2 : a ≤ n) (hb1 : 1 ≤ b) (hb2 : b ≤ n)
    (hne : a ≠ b) : relabel n σ a ≠ relabel n σ b := by
  unfold relabel
  have h1 : a - 1 < n := by omega
  have h2 : b - 1 < n := by omega
  rw [dif_pos h1, dif_pos h2]
  intro hc
  have he : σ ⟨a - 1, h1⟩ = σ ⟨b - 1, h2⟩ := by
    apply Fin.ext
    omega
  have hab := σ.injective he
  rw [Fin.mk.injEq] at hab
  omega

theorem relabel_surj_on_range {n : ℕ} (σ : Equiv.Perm (Fin n)) {b : ℕ}
    (hb1 : 1 ≤ b) (hb2 : b ≤ n) :
    ∃ a, 1 ≤ a ∧ a ≤ n ∧ relabel n σ a = b := by
  have hb : b - 1 < n := by omega
  refine ⟨(σ.symm ⟨b - 1, hb⟩).1 + 1, by omega, ?_, ?_⟩
  · have := (σ.symm ⟨b - 1, hb⟩).2
    omega
  · unfold relabel
    have h : (σ.symm ⟨b - 1, hb⟩).1 + 1 - 1 < n := by
      simpa using (σ.symm ⟨b - 1, hb⟩).2
    rw [dif_pos h]
    have he : (⟨(σ.symm ⟨b - 1, hb⟩).1 + 1 - 1, h⟩ : Fin n) =
        σ.symm ⟨b - 1, hb⟩ := by
      apply Fin.ext
      simp
    rw [he, Equiv.apply_symm_apply]
    show b - 1 + 1 = b
    omega

/-- Relabelling by a permutation preserves validity of a surjection word. -/
theorem validWord_relabelWord {n : ℕ} (σ : Equiv.Perm (Fin n)) {w : Word}
    (h : validWord n w = true) :
    validWord n (relabelWord n σ w) = true := by
  rw [validWord_iff] at h ⊢
  obtain ⟨hr, ho, hd⟩ := h
  refine ⟨?_, ?_, ?_⟩
  · intro a ha
    rw [relabelWord, List.mem_map] at ha
    obtain ⟨b, hb, rfl⟩ := ha
    exact relabel_range σ (hr b hb).1 (hr b hb).2
  · intro b hb1 hb2
    obtain ⟨a, ha1, ha2, rfl⟩ := relabel_surj_on_range σ hb1 hb2
    rw [relabelWord, List.mem_map]
    exact ⟨a, ho a ha1 ha2, rfl⟩
  · rw [relabelWord, List.chain'_map]
    rw [List.chain'_iff_get] at hd ⊢
    intro i hi
    have hlen : i < w.length - 1 := by simpa using hi
    have hne := hd i hlen
    have hm1 : w.get ⟨i, by omega⟩ ∈ w := List.get_mem w i _
    have hm2 : w.get ⟨i + 1, by omega⟩ ∈ w := List.get_mem w (i + 1) _
    exact relabel_inj_on_range σ (hr _ hm1).1 (hr _ hm1).2
      (hr _ hm2).1 (hr _ hm2).2 hne

/-- Keys of the action of a permutation stay valid surjection words. -/
theorem actL_valid {p n : ℕ} (σ : Equiv.Perm (Fin n)) {l : TList}
    (hl : ∀ t ∈ l, validWord n t.1 = true) :
    ∀ t ∈ actL p n σ l, validWord n t.1 = true := by
  intro t ht
  have hk := keys_norm_subset ht
  rw [List.map_map, List.mem_map] at hk
  obtain ⟨s, hs, hks⟩ := hk
  rw [← hks]
  exact validWord_relabelWord σ (hl s hs)

/-- The orbit representative is one of the translates of the element. -/
theorem orbitL_exists_perm (p n : ℕ) (l : TList) :
    ∃ σ : Equiv.Perm (Fin n), orbitL p n l = actL p n σ l := by
  have h := Finset.min'_mem (translates p n l) (translates_nonempty p n l)
  unfold translates at h
  rw [Finset.mem_image] at h
  obtain ⟨σ, _, hσ⟩ := h
  refine ⟨σ, ?_⟩
  show decE ((translates p n l).min' (translates_nonempty p n l)) = actL p n σ l
  have h2 : (translates p n l).min' (translates_nonempty p n l) =
      encE (actL p n σ l) := hσ.symm
  rw [h2, decE_encE]

/-- Every term of the boundary is a valid deletion of a term of the input. -/
theorem mem_boundaryL {p n : ℕ} {l : TList} {t : Term}
    (ht : t ∈ boundaryL p n l) :
    validWord n t.1 = true ∧
      ∃ s ∈ l, ∃ j, j < s.1.length ∧ t.1 = s.1.eraseIdx j := by
  have hk := keys_norm_subset ht
  rw [List.mem_map] at hk
  obtain ⟨u, hu, huk⟩ := hk
  rw [List.mem_flatMap] at hu
  obtain ⟨s, hs, hu2⟩ := hu
  unfold boundaryTerms at hu2
  rw [List.mem_filterMap] at hu2
  obtain ⟨j, hj, hj2⟩ := hu2
  rw [List.mem_range] at hj
  by_cases hv : validWord n (s.1.eraseIdx j) = true
  · rw [if_pos hv] at hj2
    obtain rfl : (s.1.eraseIdx j, faceCoeff p j s.2) = u := Option.some.inj hj2
    rw [← huk]
    exact ⟨hv, s, hs, j, hj, rfl⟩
  · rw [if_neg hv] at hj2
    cases hj2

/-- C1: for every valid `Surjection_element` `x` (positive torsion, every
basis key a valid surjection word), applying `boundary()` twice yields the
zero element — the empty mapping — for all valid inputs, not only the
documented examples. -/
theorem C1_boundary_boundary_eq_zero (x : SurjElt) (hp : 0 < x.torsion)
    (hx : ∀ t ∈ x.terms, validWord x.arity t.1 = true) :
    x.boundary.boundary = ⟨x.arity, x.torsion, x.convention, []⟩ := by
  show (⟨x.arity, x.torsion, x.convention,
    boundaryL x.torsion x.arity (boundaryL x.torsion x.arity x.terms)⟩ :
      SurjElt) = _
  rw [boundaryL_boundaryL hp x.terms
    (fun t ht => inRangeB_of_validWord (hx t ht))]

/-- Witness for C1 at a concrete valid element over torsion three. -/
theorem C1_witness :
    0 < (⟨2, 3, "Berger-Fresse", [([1,2,1,2],1)]⟩ : SurjElt).torsion ∧
    (∀ t ∈ (⟨2, 3, "Berger-Fresse", [([1,2,1,2],1)]⟩ : SurjElt).terms,
      validWord 2 t.1 = true) ∧
    (⟨2, 3, "Berger-Fresse", [([1,2,1,2],1)]⟩ : SurjElt).boundary.boundary =
      ⟨2, 3, "Berger-Fresse", []⟩ :=
  ⟨by decide, by decide,
    C1_boundary_boundary_eq_zero ⟨2, 3, "Berger-Fresse", [([1,2,1,2],1)]⟩
      (by decide) (by decide)⟩

/-- C3: the orbit reduction is well-defined and group invariant:
pre-multiplying by any group element of the acting symmetric group does not
change `orbit()`, so the representative does not depend on which element of
the orbit is given. -/
theorem C3_orbit_invariant (x : SurjElt) (hp : 0 < x.torsion)
    (σ : Equiv.Perm (Fin x.arity)) : (x.act σ).orbit = x.orbit := by
  show (⟨x.arity, x.torsion, x.convention,
    orbitL x.torsion x.arity (actL x.torsion x.arity σ x.terms)⟩ : SurjElt) =
    ⟨x.arity, x.torsion, x.convention, orbitL x.torsion x.arity x.terms⟩
  rw [orbitL_actL hp]

/-- Witness for C3 at a concrete element and the rotation permutation. -/
theorem C3_witness :
    0 < (⟨2, 3, "Berger-Fresse", [([1,2,1],1)]⟩ : SurjElt).torsion ∧
    ((⟨2, 3, "Berger-Fresse", [([1,2,1],1)]⟩ : SurjElt).act
        (rotationPerm 2)).orbit =
      (⟨2, 3, "Berger-Fresse", [([1,2,1],1)]⟩ : SurjElt).orbit :=
  ⟨by decide,
    C3_orbit_invariant ⟨2, 3, "Berger-Fresse", [([1,2,1],1)]⟩ (by decide)
      (rotationPerm 2)⟩

/-- C5: the boundary maps a degree `d` element to a degree `d - 1` element:
every output term is a valid surjection word obtained by deleting one
position of an input word (so one entry shorter); the output is a
normalised mapping, with colliding terms summed mod the torsion,
coefficients reduced into `[1, torsion)`, and zero coefficients dropped. -/
theorem C5_boundary_structure {p n : ℕ} (hp : 0 < p) (x : TList) :
    isNormal p (boundaryL p n x) ∧
      ∀ t ∈ boundaryL p n x, validWord n t.1 = true ∧
        ∃ s ∈ x, ∃ j, j < s.1.length ∧ t.1 = s.1.eraseIdx j ∧
          t.1.length + 1 = s.1.length := by
  refine ⟨isNormal_norm hp _, ?_⟩
  intro t ht
  obtain ⟨hv, s, hs, j, hj, he⟩ := mem_boundaryL ht
  refine ⟨hv, s, hs, j, hj, he, ?_⟩
  rw [he, List.length_eraseIdx, if_pos hj]
  omega

/-- Witness for C5 at a concrete element. -/
theorem C5_witness :
    0 < (3:ℕ) ∧
    (isNormal 3 (boundaryL 3 2 [([1,2,1],1)]) ∧
      ∀ t ∈ boundaryL 3 2 [([1,2,1],1)], validWord 2 t.1 = true ∧
        ∃ s ∈ [(([1,2,1] : Word),(1:ℕ))], ∃ j, j < s.1.length ∧
          t.1 = s.1.eraseIdx j ∧ t.1.length + 1 = s.1.length) :=
  ⟨by decide, C5_boundary_structure (by decide) [([1,2,1],1)]⟩

/-- C6: the `compose(other, i)` contract: when torsion and convention agree
and `1 ≤ i ≤ m` the result is an element of arity `m + n - 1` with the same
torsion and convention; an out-of-range slot raises `InvalidSlotError`;
mismatched torsion or convention raises `IncompatibleElementError`. -/
theorem C6_compose_contract (x y : SurjElt) (i : ℕ) :
    (x.torsion = y.torsion ∧ x.convention = y.convention →
      ((1 ≤ i ∧ i ≤ x.arity → ∃ z, composeE x y i = Except.ok z ∧
          z.arity = x.arity + y.arity - 1 ∧ z.torsion = x.torsion ∧
          z.convention = x.convention) ∧
        (¬ (1 ≤ i ∧ i ≤ x.arity) →
          composeE x y i = Except.error ElemError.invalidSlot))) ∧
    (¬ (x.torsion = y.torsion ∧ x.convention = y.convention) →
      composeE x y i = Except.error ElemError.incompatible) := by
  unfold composeE
  refine ⟨fun hc => ⟨fun hs => ?_, fun hs => ?_⟩, fun hc => ?_⟩
  · rw [if_pos hc, if_pos hs]
    exact ⟨_, rfl, rfl, rfl, rfl⟩
  · rw [if_pos hc, if_neg hs]
  · rw [if_neg hc]

/-- Witness for C6: success, invalid slot, and incompatibility at concrete
elements. -/
theorem C6_witness :
    (∃ z, composeE ⟨2, 3, "Berger-Fresse", [([1,2,1],1)]⟩
        ⟨2, 3, "Berger-Fresse", [([1,2,1],1)]⟩ 1 = Except.ok z ∧
        z.arity = 3 ∧ z.torsion = 3 ∧ z.convention = "Berger-Fresse") ∧
    composeE ⟨2, 3, "Berger-Fresse", [([1,2,1],1)]⟩
        ⟨2, 3, "Berger-Fresse", [([1,2,1],1)]⟩ 5 =
      Except.error ElemError.invalidSlot ∧
    composeE ⟨2, 3, "Berger-Fresse", [([1,2,1],1)]⟩
        ⟨2, 5, "Berger-Fresse", [([1,2,1],1)]⟩ 1 =
      Except.error ElemError.incompatible := by
  refine ⟨?_, ?_, ?_⟩
  · obtain ⟨z, h1, h2, h3, h4⟩ :=
      ((C6_compose_contract ⟨2, 3, "Berger-Fresse", [([1,2,1],1)]⟩
        ⟨2, 3, "Berger-Fresse", [([1,2,1],1)]⟩ 1).1 ⟨rfl, rfl⟩).1
        ⟨by decide, by decide⟩
    exact ⟨z, h1, h2, h3, h4⟩
  · exact ((C6_compose_contract ⟨2, 3, "Berger-Fresse", [([1,2,1],1)]⟩
      ⟨2, 3, "Berger-Fresse", [([1,2,1],1)]⟩ 5).1 ⟨rfl, rfl⟩).2
      (fun h => absurd h.2 (by decide))
  · exact (C6_compose_contract ⟨2, 3, "Berger-Fresse", [([1,2,1],1)]⟩
      ⟨2, 5, "Berger-Fresse", [([1,2,1],1)]⟩ 1).2
      (fun h => absurd h.1 (by decide))

/-- C7: every modelled operation — addition, scalar multiplication,
boundary, composition, the group action, orbit reduction, and suspension
(for every rule and parity unit of the spec's shape) — preserves the
representation invariant: the result is a normalised mapping (all stored
coefficients in `[1, torsion)`, never zero, keys distinct and canonically
sorted — the zero element being exactly the empty mapping) whose keys are
valid surjection words of the operation's arity. -/
theorem C7_operations_preserve_invariant {p m n c i : ℕ} (hp : 0 < p)
    (x y u v : TList) (σ : Equiv.Perm (Fin n))
    (rule : Word → Option Word) (unit : ℕ → ℕ)
    (hx : ∀ t ∈ x, validWord n t.1 = true)
    (hy : ∀ t ∈ y, validWord n t.1 = true) :
    (isNormal p (addL p x y) ∧
      ∀ t ∈ addL p x y, validWord n t.1 = true) ∧
    (isNormal p (scalarL p c x) ∧
      ∀ t ∈ scalarL p c x, validWord n t.1 = true) ∧
    (isNormal p (boundaryL p n x) ∧
      ∀ t ∈ boundaryL p n x, validWord n t.1 = true) ∧
    (isNormal p (composeL p m n u v i) ∧
      ∀ t ∈ composeL p m n u v i, validWord (m + n - 1) t.1 = true) ∧
    (isNormal p (actL p n σ x) ∧
      ∀ t ∈ actL p n σ x, validWord n t.1 = true) ∧
    (isNormal p (orbitL p n x) ∧
      ∀ t ∈ orbitL p n x, validWord n t.1 = true) ∧
    (isNormal p (suspensionL p n rule unit x) ∧
      ∀ t ∈ suspensionL p n rule unit x, validWord n t.1 = true) := by
  obtain ⟨ρ, hρ⟩ := orbitL_exists_perm p n x
  refine ⟨⟨isNormal_norm hp _, ?_⟩, ⟨isNormal_norm hp _, ?_⟩,
    ⟨isNormal_norm hp _, ?_⟩, ⟨isNormal_norm hp _, ?_⟩,
    ⟨isNormal_norm hp _, actL_valid σ hx⟩, ?_, ⟨isNormal_norm hp _, ?_⟩⟩
  · intro t ht
    have hk := keys_norm_subset ht
    rw [List.map_append, List.mem_append] at hk
    rcases hk with hk | hk
    · rw [List.mem_map] at hk
      obtain ⟨s, hs, he⟩ := hk
      rw [← he]
      exact hx s hs
    · rw [List.mem_map] at hk
      obtain ⟨s, hs, he⟩ := hk
      rw [← he]
      exact hy s hs
  · intro t ht
    have hk := keys_norm_subset ht
    rw [List.map_map, List.mem_map] at hk
    obtain ⟨s, hs, he⟩ := hk
    rw [← he]
    exact hx s hs
  · intro t ht
    exact (mem_boundaryL ht).1
  · intro t ht
    have hk := keys_norm_subset ht
    rw [List.mem_map] at hk
    obtain ⟨s, hs, he⟩ := hk
    rw [List.mem_filter] at hs
    rw [← he]
    exact hs.2
  · rw [hρ]
    exact ⟨isNormal_norm hp _, actL_valid ρ hx⟩
  · intro t ht
    have hk := keys_norm_subset ht
    rw [List.mem_map] at hk
    obtain ⟨s, hs, he⟩ := hk
    rw [List.mem_filter] at hs
    rw [← he]
    exact hs.2

/-- Witness for C7 at concrete elements and operations. -/
theorem C7_witness :
    0 < (3:ℕ) ∧
    ((isNormal 3 (addL 3 [([1,2,1],1)] [([2,1,2],1)]) ∧
      ∀ t ∈ addL 3 [([1,2,1],1)] [([2,1,2],1)], validWord 2 t.1 = true) ∧
    (isNormal 3 (scalarL 3 2 [([1,2,1],1)]) ∧
      ∀ t ∈ scalarL 3 2 [([1,2,1],1)], validWord 2 t.1 = true) ∧
    (isNormal 3 (boundaryL 3 2 [([1,2,1],1)]) ∧
      ∀ t ∈ boundaryL 3 2 [([1,2,1],1)], validWord 2 t.1 = true) ∧
    (isNormal 3 (composeL 3 2 2 [([1,2,1],1)] [([1,2,1],1)] 1) ∧
      ∀ t ∈ composeL 3 2 2 [([1,2,1],1)] [([1,2,1],1)] 1,
        validWord (2 + 2 - 1) t.1 = true) ∧
    (isNormal 3 (actL 3 2 (rotationPerm 2) [([1,2,1],1)]) ∧
      ∀ t ∈ actL 3 2 (rotationPerm 2) [([1,2,1],1)],
        validWord 2 t.1 = true) ∧
    (isNormal 3 (orbitL 3 2 [([1,2,1],1)]) ∧
      ∀ t ∈ orbitL 3 2 [([1,2,1],1)], validWord 2 t.1 = true) ∧
    (isNormal 3 (suspensionL 3 2 Option.some (fun _ => 1) [([1,2,1],1)]) ∧
      ∀ t ∈ suspensionL 3 2 Option.some (fun _ => 1) [([1,2,1],1)],
        validWord 2 t.1 = true)) :=
  ⟨by decide,
    C7_operations_preserve_invariant (by decide) [([1,2,1],1)] [([2,1,2],1)]
      [([1,2,1],1)] [([1,2,1],1)] (rotationPerm 2) Option.some (fun _ => 1)
      (by decide) (by decide)⟩

/-- C9: constructing a basis surjection fails with `InvalidSurjectionError`
exactly when a label is out of `[1, arity]`, a label of `1..arity` does not
occur, or the convention's non-degeneracy condition (no adjacent repetition)
is violated; construction is all-or-nothing: a successful construction
returns the fully validated value, with no partial state on failure. -/
theorem C9_construction_contract (w : Word) (n p : ℕ) :
    (mkSurjection w n p = Except.error ElemError.invalidSurjection ↔
      ¬ ((∀ a ∈ w, 1 ≤ a ∧ a ≤ n) ∧ (∀ b, 1 ≤ b → b ≤ n → b ∈ w) ∧
        w.Chain' (fun a b => a ≠ b))) ∧
    (∀ s, mkSurjection w n p = Except.ok s →
      s.word = w ∧ s.arity = n ∧ s.torsion = p ∧ validWord n w = true) := by
  unfold mkSurjection
  by_cases h : validWord n w = true
  · rw [dif_pos h]
    constructor
    · constructor
      · intro hc
        cases hc
      · intro hc
        exact absurd (validWord_iff.mp h) hc
    · intro s hs
      obtain rfl : ({ word := w, arity := n, torsion := p, valid := h } :
          Surjection) = s := Except.ok.inj hs
      exact ⟨rfl, rfl, rfl, h⟩
  · rw [dif_neg h]
    constructor
    · constructor
      · intro _ hc
        exact h (validWord_iff.mpr hc)
      · intro _
        rfl
    · intro s hs
      cases hs

/-- Witness for C9: a degenerate word is rejected, a valid word is accepted
with its full data. -/
theorem C9_witness :
    mkSurjection [1,1,2] 2 3 = Except.error ElemError.invalidSurjection ∧
    (∀ s, mkSurjection [1,2,1] 2 3 = Except.ok s →
      s.word = [1,2,1] ∧ s.arity = 2 ∧ s.torsion = 3 ∧
        validWord 2 [1,2,1] = true) :=
  ⟨(C9_construction_contract [1,1,2] 2 3).1.mpr
      (fun hc => (List.chain'_cons.mp hc.2.2).1 rfl),
    (C9_construction_contract [1,2,1] 2 3).2⟩

/-- C10: the symmetric-group action is closed in the module: acting by the
rotation element whose permutation degree matches the arity gives a valid
`Surjection_element` with the same arity, torsion and convention, which
`compose` accepts as an operand (and `orbit` applies to). -/
theorem C10_action_closed (x : SurjElt) (hp : 0 < x.torsion) (hwf : x.wf) :
    (x.act (rotationPerm x.arity)).wf ∧
    (x.act (rotationPerm x.arity)).arity = x.arity ∧
    (x.act (rotationPerm x.arity)).torsion = x.torsion ∧
    (x.act (rotationPerm x.arity)).convention = x.convention ∧
    (∀ i, 1 ≤ i → i ≤ x.arity → (∃ z,
      composeE (x.act (rotationPerm x.arity)) x i = Except.ok z) ∧
      ∃ z, composeE x (x.act (rotationPerm x.arity)) i = Except.ok z) := by
  refine ⟨⟨isNormal_norm hp _, actL_valid _ hwf.2⟩, rfl, rfl, rfl, ?_⟩
  intro i h1 h2
  constructor
  · unfold composeE
    rw [if_pos ⟨rfl, rfl⟩, if_pos ⟨h1, h2⟩]
    exact ⟨_, rfl⟩
  · unfold composeE
    rw [if_pos ⟨rfl, rfl⟩, if_pos ⟨h1, h2⟩]
    exact ⟨_, rfl⟩

/-- Witness for C10 at a concrete valid element. -/
theorem C10_witness :
    0 < (⟨2, 3, "Berger-Fresse", [([1,2,1],1)]⟩ : SurjElt).torsion ∧
    (⟨2, 3, "Berger-Fresse", [([1,2,1],1)]⟩ : SurjElt).wf ∧
    (((⟨2, 3, "Berger-Fresse", [([1,2,1],1)]⟩ : SurjElt).act
        (rotationPerm 2)).wf ∧
      ((⟨2, 3, "Berger-Fresse", [([1,2,1],1)]⟩ : SurjElt).act
        (rotationPerm 2)).arity = 2 ∧
      ((⟨2, 3, "Berger-Fresse", [([1,2,1],1)]⟩ : SurjElt).act
        (rotationPerm 2)).torsion = 3 ∧
      ((⟨2, 3, "Berger-Fresse", [([1,2,1],1)]⟩ : SurjElt).act
        (rotationPerm 2)).convention = "Berger-Fresse" ∧
      (∀ i, 1 ≤ i → i ≤ 2 → (∃ z,
        composeE ((⟨2, 3, "Berger-Fresse", [([1,2,1],1)]⟩ : SurjElt).act
          (rotationPerm 2)) ⟨2, 3, "Berger-Fresse", [([1,2,1],1)]⟩ i =
          Except.ok z) ∧
        ∃ z, composeE ⟨2, 3, "Berger-Fresse", [([1,2,1],1)]⟩
          ((⟨2, 3, "Berger-Fresse", [([1,2,1],1)]⟩ : SurjElt).act
            (rotationPerm 2)) i = Except.ok z)) :=
  ⟨by decide,
    ⟨⟨List.sorted_singleton _, List.nodup_singleton _, by decide⟩, by decide⟩,
    C10_action_closed ⟨2, 3, "Berger-Fresse", [([1,2,1],1)]⟩ (by decide)
      ⟨⟨List.sorted_singleton _, List.nodup_singleton _, by decide⟩,
        by decide⟩⟩

end Clesto
